import Mathlib

/-!
Verification of the dependency-explorer package graph engine.

The data model and the operations below are shallow embeddings of the
repository's code: the graph query engine in `ui/lib/packages.ts`
(`collectPackageTree`, `collectReversePackageTree`, `isOrphaned`,
`sortPackagesByName`, `processBrokenDependencies`, `countPackages`), the
sub-graph extraction of the Investigate view (`subGraphData` with
`addForwardLinks` / `addReverseLinks`), and the selection modes of
`collect-deps.sh` (`first` / `last` / `random`).  JavaScript arrays become
`List`, JavaScript `Set` objects (insertion-ordered, membership-tested)
become `List` with append-if-absent insertion, and machine mutation is made
explicit where a claim depends on it.
-/

/-- One node of the dependency graph, the `PackageNode` of the UI.  The
fields mirror the serialized record: `id` (package name, the `name` key),
`explicit`, `version`, `depends_on`, `required_by` and the synthetic-marker
`broken` (an optional boolean in TypeScript, absent meaning `false`).
`optional_depends_on` is modelled from the spec's data model (§3,
`optionalDependsOn`); the metadata fields (`repo`, `url`, `locally_built`,
`optional_required_by`) are never consulted by any operation below and are
omitted. -/
structure PackageNode where
  id : String
  explicit : Bool
  version : String
  depends_on : List String
  required_by : List String
  optional_depends_on : List String
  broken : Bool
deriving Repr, DecidableEq

/-- The set of node names (keys of the graph), used only as the termination
measure of the worklist traversal. -/
def graphIds (nodes : List PackageNode) : Finset String :=
  (nodes.map (fun n => n.id)).toFinset

/-- Worklist form of the recursive tree collectors of `ui/lib/packages.ts`.
The source functions take a mutable `Set` accumulator `result`; here the
accumulator is an insertion-ordered duplicate-free list and the updated
accumulator is returned.  `sel` selects the adjacency list that is followed
(`depends_on` for `collectPackageTree`, `required_by` for
`collectReversePackageTree`).  A single call on id `dep` does: if
`result.has(dep)` return; `result.add(dep)`; look the record up with
`nodes.find(n => n.id === dep)`; if absent return, else recurse over the
selected edge list.  The worklist argument sequences the `forEach` over that
edge list.  The subtype records that the accumulator only grows, which the
termination measure needs. -/
def collectGo (nodes : List PackageNode) (sel : PackageNode → List String) :
    (wl : List String) → (result : List String) → {r : List String // ∀ x ∈ result, x ∈ r}
  | [], result => ⟨result, fun _ hx => hx⟩
  | dep :: rest, result =>
    if hmem : dep ∈ result then
      collectGo nodes sel rest result
    else
      match hf : nodes.find? (fun n => n.id == dep) with
      | none =>
        let r := collectGo nodes sel rest (result ++ [dep])
        ⟨r.val, fun x hx => r.property x (List.mem_append_left _ hx)⟩
      | some pkg =>
        let r1 := collectGo nodes sel (sel pkg) (result ++ [dep])
        let r2 := collectGo nodes sel rest r1.val
        ⟨r2.val, fun x hx => r2.property x (r1.property x (List.mem_append_left _ hx))⟩
termination_by wl result => ((graphIds nodes \ result.toFinset).card, wl.length)
decreasing_by
  · apply Prod.Lex.right' <;> simp
  · apply Prod.Lex.right'
    · apply Finset.card_le_card
      intro x hx
      simp only [Finset.mem_sdiff, List.toFinset_append, Finset.mem_union] at hx ⊢
      tauto
    · simp
  · apply Prod.Lex.left
    have hdep : dep ∈ graphIds nodes := by
      have := List.find?_some hf
      have hmemf := List.mem_of_find?_eq_some hf
      simp only [beq_iff_eq] at this
      simp only [graphIds, List.mem_toFinset, List.mem_map]
      exact ⟨pkg, hmemf, this⟩
    apply Finset.card_lt_card
    constructor
    · intro x hx
      simp only [Finset.mem_sdiff, List.toFinset_append, Finset.mem_union] at hx ⊢
      tauto
    · intro hsub
      have : dep ∈ graphIds nodes \ result.toFinset := by
        simp [Finset.mem_sdiff, hdep, hmem]
      have := hsub this
      simp at this
  · apply Prod.Lex.left
    have hdep : dep ∈ graphIds nodes := by
      have := List.find?_some hf
      have hmemf := List.mem_of_find?_eq_some hf
      simp only [beq_iff_eq] at this
      simp only [graphIds, List.mem_toFinset, List.mem_map]
      exact ⟨pkg, hmemf, this⟩
    apply Finset.card_lt_card
    constructor
    · intro x hx
      simp only [Finset.mem_sdiff] at hx ⊢
      refine ⟨hx.1, fun hc => hx.2 ?_⟩
      exact List.mem_toFinset.mpr
        (r1.property x (List.mem_append_left _ (List.mem_toFinset.mp hc)))
    · intro hsub
      have hin : dep ∈ graphIds nodes \ result.toFinset := by
        simp [Finset.mem_sdiff, hdep, hmem]
      have := hsub hin
      simp only [Finset.mem_sdiff, List.mem_toFinset] at this
      exact this.2 (r1.property dep (by simp))

/-- Forward transitive tree collector, `collectPackageTree` of
`ui/lib/packages.ts` (lines 27-41): adds `packageId`, then recursively
follows `depends_on` edges, visiting every name at most once.  Returns the
updated accumulator (the source mutates its `result` set). -/
def collectPackageTree (packageId : String) (nodes : List PackageNode)
    (result : List String) : List String :=
  (collectGo nodes (fun n => n.depends_on) [packageId] result).val

/-- Reverse transitive tree collector, `collectReversePackageTree` of
`ui/lib/packages.ts` (lines 46-60): same traversal along `required_by`. -/
def collectReversePackageTree (packageId : String) (nodes : List PackageNode)
    (result : List String) : List String :=
  (collectGo nodes (fun n => n.required_by) [packageId] result).val

/-- Reachability along the edge lists chosen by `sel`: the reflexive
closure of single steps that look the current name up with
`nodes.find(n => n.id === q)` and follow one entry of its selected edge
list.  A name with no record (dangling) is reachable but contributes no
steps, exactly as the traversal does not expand it. -/
inductive ReachBy (nodes : List PackageNode) (sel : PackageNode → List String) :
    String → String → Prop where
  | refl (p : String) : ReachBy nodes sel p p
  | step {p q d : String} {pkg : PackageNode} :
      ReachBy nodes sel p q → nodes.find? (fun n => n.id == q) = some pkg →
      d ∈ sel pkg → ReachBy nodes sel p d

/-- Reachability that avoids an initial visited set: every name on the
path, endpoints included, lies outside `avoid`.  This is the precise
content of the visited-set accumulator: names already in the accumulator
block further exploration through them. -/
inductive ReachAvoid (nodes : List PackageNode) (sel : PackageNode → List String)
    (avoid : List String) : String → String → Prop where
  | refl (p : String) : p ∉ avoid → ReachAvoid nodes sel avoid p p
  | step {p q d : String} {pkg : PackageNode} :
      ReachAvoid nodes sel avoid p q → nodes.find? (fun n => n.id == q) = some pkg →
      d ∈ sel pkg → d ∉ avoid → ReachAvoid nodes sel avoid p d

/-- Orphan test, `isOrphaned` of `ui/lib/packages.ts` (lines 65-67):
`!pkg.explicit && pkg.required_by.length === 0`. -/
def isOrphaned (pkg : PackageNode) : Bool :=
  !pkg.explicit && pkg.required_by.length == 0

/-- Comparator order used by `sortPackagesByName`: the `localeCompare`
comparison on names, modelled as the lexicographic order on strings. -/
def pkgLE (a b : PackageNode) : Prop := a.id ≤ b.id

instance : DecidableRel pkgLE := fun a b => inferInstanceAs (Decidable (a.id ≤ b.id))

instance : IsTotal PackageNode pkgLE := ⟨fun a b => le_total a.id b.id⟩

instance : IsTrans PackageNode pkgLE := ⟨fun _ _ _ h1 h2 => le_trans h1 h2⟩

/-- Value computed by `sortPackagesByName` of `ui/lib/packages.ts`
(lines 72-74): the stable alphabetical reordering of the list.  The source
calls `packages.sort(...)`, which sorts the argument array *in place*;
`sortPackagesByNameRun` below models that mutation. -/
def sortPackagesByName (packages : List PackageNode) : List PackageNode :=
  packages.insertionSort pkgLE

/-- Synthetic placeholder record created by `processBrokenDependencies` for
a dangling dependency name (`ui/lib/packages.ts` lines 107-114). -/
def syntheticNode (dep : String) : PackageNode :=
  { id := dep
    explicit := false
    version := "missing"
    depends_on := []
    required_by := []
    optional_depends_on := []
    broken := true }

/-- Key list of the `nodeMap` built by `processBrokenDependencies`
(`ui/lib/packages.ts` lines 83-89): the map is keyed by `id` and only
membership is consulted, so it is modelled by the list of ids. -/
def nodeMapKeys (nodes : List PackageNode) : List String :=
  nodes.map (fun n => n.id)

/-- Cleaning of one node (`ui/lib/packages.ts` lines 92-95): the object
spread copies the record and filters `required_by` to names present in the
map. -/
def cleanNode (keys : List String) (node : PackageNode) : PackageNode :=
  { node with required_by := node.required_by.filter (fun dep => dep ∈ keys) }

/-- The `cleanedNodes` local of `processBrokenDependencies`. -/
def cleanedNodes (nodes : List PackageNode) : List PackageNode :=
  nodes.map (cleanNode (nodeMapKeys nodes))

/-- The `brokenDeps` set of `processBrokenDependencies` (lines 97-104):
walk every cleaned node's `depends_on` and record each name absent from the
map, in first-occurrence order without duplicates (`Set` insertion). -/
def brokenDepsList (nodes : List PackageNode) : List String :=
  (cleanedNodes nodes).foldl (fun acc node =>
    node.depends_on.foldl (fun acc dep =>
      if dep ∈ nodeMapKeys nodes then acc
      else if dep ∈ acc then acc else acc ++ [dep]) acc) []

/-- Broken-dependency synthesis, `processBrokenDependencies` of
`ui/lib/packages.ts` (lines 80-117): empty input short-circuits; otherwise
the cleaned real records are followed by one synthetic placeholder per
recorded dangling name. -/
def processBrokenDependencies (nodes : List PackageNode) : List PackageNode :=
  if nodes.isEmpty then []
  else cleanedNodes nodes ++ (brokenDepsList nodes).map syntheticNode

/-- Result record of `countPackages`. -/
structure PackageCounts where
  explicit : Nat
  dependency : Nat
  broken : Nat
  total : Nat
deriving Repr, DecidableEq

/-- Counting, `countPackages` of `ui/lib/packages.ts` (lines 122-136):
`explicit` counts non-broken explicit nodes, `broken` counts broken nodes,
`dependency` is `length - explicit - broken` (the source computes it with
JavaScript number subtraction; both counts are bounded by the length, so
natural-number subtraction agrees). -/
def countPackages (nodes : List PackageNode) : PackageCounts :=
  let explicitCount := (nodes.filter (fun n => n.explicit && !n.broken)).length
  let brokenCount := (nodes.filter (fun n => n.broken)).length
  { explicit := explicitCount
    dependency := nodes.length - explicitCount - brokenCount
    broken := brokenCount
    total := nodes.length }

/-- Direction mode of the Investigate sub-graph. -/
inductive DependencyDirection where
  | forward
  | reverse
  | both
deriving Repr, DecidableEq

/-- Insertion into an insertion-ordered set, the `Set.add` of JavaScript:
append the element unless already present. -/
def addUnique (l : List String) (x : String) : List String :=
  if x ∈ l then l else l ++ [x]

/-- Node-name set of the sub-graph (the `treePackageIds` set of the
Investigate view): the single-direction closure for `forward` / `reverse`,
and for `both` the forward closure with every member of the reverse closure
added. -/
def treePackageIds (nodes : List PackageNode) (selectedId : String)
    (direction : DependencyDirection) : List String :=
  match direction with
  | .forward => collectPackageTree selectedId nodes []
  | .reverse => collectReversePackageTree selectedId nodes []
  | .both =>
    let fwd := collectPackageTree selectedId nodes []
    let rev := collectReversePackageTree selectedId nodes []
    rev.foldl addUnique fwd

/-- Dedup key of one link, the template literal `source + "->" + target`
used for the `linkSet` membership test. -/
def linkKey (source target : String) : String := source ++ "->" ++ target

/-- State threaded through link building: the `linkSet` key set
(insertion-ordered) and the `subLinks` list.  The link `type` field,
delegated to `getLinkType` (outside the engine), carries no information
about the (source, target) pair and is omitted. -/
abbrev LinkState := List String × List (String × String)

/-- Helper `addForwardLinks` of the Investigate view: for every `dep` in
`node.depends_on` that is in the tree set, push the link `node.id -> dep`
unless its key is already in the link set. -/
def addForwardLinks (node : PackageNode) (tree : List String) (st : LinkState) : LinkState :=
  node.depends_on.foldl (fun st dep =>
    if dep ∈ tree then
      if linkKey node.id dep ∈ st.1 then st
      else (st.1 ++ [linkKey node.id dep], st.2 ++ [(node.id, dep)])
    else st) st

/-- Helper `addReverseLinks` of the Investigate view: for every `parent` in
`node.required_by` that is in the tree set, push the link
`parent -> node.id` unless its key is already in the link set. -/
def addReverseLinks (node : PackageNode) (tree : List String) (st : LinkState) : LinkState :=
  node.required_by.foldl (fun st parent =>
    if parent ∈ tree then
      if linkKey parent node.id ∈ st.1 then st
      else (st.1 ++ [linkKey parent node.id], st.2 ++ [(parent, node.id)])
    else st) st

/-- Per-node step of the link-building loop: forward links when the
direction includes forward, then reverse links when it includes reverse. -/
def subGraphStep (direction : DependencyDirection) (tree : List String)
    (st : LinkState) (node : PackageNode) : LinkState :=
  let st1 :=
    if direction = DependencyDirection.forward ∨ direction = DependencyDirection.both then
      addForwardLinks node tree st
    else st
  if direction = DependencyDirection.reverse ∨ direction = DependencyDirection.both then
    addReverseLinks node tree st1
  else st1

/-- Included nodes of the sub-graph: the input nodes whose id is in the
tree set (`nodes.filter(n => treePackageIds.has(n.id))`). -/
def subGraphNodes (nodes : List PackageNode) (selectedId : String)
    (direction : DependencyDirection) : List PackageNode :=
  nodes.filter (fun n => n.id ∈ treePackageIds nodes selectedId direction)

/-- Edge list of the sub-graph: fold the link-building step over the
included nodes starting from empty link set and empty link list. -/
def subGraphLinks (nodes : List PackageNode) (selectedId : String)
    (direction : DependencyDirection) : List (String × String) :=
  ((subGraphNodes nodes selectedId direction).foldl
    (subGraphStep direction (treePackageIds nodes selectedId direction)) ([], [])).2

/-- Result of sub-graph extraction. -/
structure SubGraph where
  nodes : List PackageNode
  links : List (String × String)
deriving Repr, DecidableEq

/-- Sub-graph extraction of the Investigate view (`subGraphData`): the
included nodes and the deduplicated link list for a focal package and a
direction mode. -/
def subGraphData (nodes : List PackageNode) (selectedId : String)
    (direction : DependencyDirection) : SubGraph :=
  ⟨subGraphNodes nodes selectedId direction, subGraphLinks nodes selectedId direction⟩

/-- Every name that occurs in the graph: node ids and both edge lists.
Used to scope the dedup-key injectivity hypothesis of the sub-graph
theorem. -/
def graphNames (nodes : List PackageNode) : List String :=
  nodes.flatMap (fun n => n.id :: (n.depends_on ++ n.required_by))

/-- State-passing model of `sortPackagesByName`: the first component is the
contents of the argument array after the call.  `Array.prototype.sort`
sorts in place and returns the same array, so both components are the
sorted list. -/
def sortPackagesByNameRun (packages : List PackageNode) :
    List PackageNode × List PackageNode :=
  (sortPackagesByName packages, sortPackagesByName packages)

/-- State-passing model of `processBrokenDependencies`: the input array is
read through `map` / `filter` / object spread only, all of which allocate
fresh arrays and objects, so the argument is unchanged. -/
def processBrokenDependenciesRun (nodes : List PackageNode) :
    List PackageNode × List PackageNode :=
  (nodes, processBrokenDependencies nodes)

/-- State-passing model of `countPackages`: the input array is only
filtered and measured, so the argument is unchanged. -/
def countPackagesRun (nodes : List PackageNode) : List PackageNode × PackageCounts :=
  (nodes, countPackages nodes)

/-- State-passing model of `collectPackageTree` with respect to the node
list: the traversal only reads `nodes` (`find`, `forEach`), so the argument
is unchanged (the `result` set accumulator is the returned value). -/
def collectPackageTreeRun (packageId : String) (nodes : List PackageNode)
    (result : List String) : List PackageNode × List String :=
  (nodes, collectPackageTree packageId nodes result)

/-- State-passing model of `collectReversePackageTree`, as for the forward
collector. -/
def collectReversePackageTreeRun (packageId : String) (nodes : List PackageNode)
    (result : List String) : List PackageNode × List String :=
  (nodes, collectReversePackageTree packageId nodes result)

/-- State-passing model of sub-graph extraction: the input node list is
only filtered and scanned, so the argument is unchanged. -/
def subGraphDataRun (nodes : List PackageNode) (selectedId : String)
    (direction : DependencyDirection) : List PackageNode × SubGraph :=
  (nodes, subGraphData nodes selectedId direction)

/-- Selection mode `first` of `collect-deps.sh` (line 268):
`"${explicit_array[@]:0:FILTER_VALUE}"`, the first `n` entries of the
explicitly-installed list. -/
def firstN (l : List String) (n : Nat) : List String := l.take n

/-- Selection mode `last` of `collect-deps.sh` (lines 273-278):
`start_idx = len - n`, clamped at zero when negative, then the slice
`"${explicit_array[@]:start_idx}"`. -/
def lastN (l : List String) (n : Nat) : List String :=
  let start_idx : Int := (l.length : Int) - (n : Int)
  let start_idx := if start_idx < 0 then 0 else start_idx
  l.drop start_idx.toNat

/-- Selection mode `random` of `collect-deps.sh` (lines 283-289):
`shuf -n n` over the explicit list emits the first `n` lines of a random
permutation `perm` of the list, or all lines when `n` exceeds their number
(`shuf` clamps, it does not fail).  The command substitution plus
`mapfile <<<` turns an empty output into a single empty entry. -/
def randomSelect (perm : List String) (n : Nat) : List String :=
  if (perm.take n).isEmpty then [""] else perm.take n

/-- Example node A of the spec's end-to-end example: explicit, depends on
B, required by nothing. -/
def exA : PackageNode := ⟨"A", true, "1.0", ["B"], [], [], false⟩

/-- Example node B of the spec's end-to-end example: a dependency,
depends on the absent C, required by A. -/
def exB : PackageNode := ⟨"B", false, "1.0", ["C"], ["A"], [], false⟩

/-- Variant of B with no reverse edge, for the symmetry counterexample. -/
def exB0 : PackageNode := ⟨"B", false, "1.0", [], [], [], false⟩

/-- Node whose only dangling reference sits in `optional_depends_on`. -/
def optNode : PackageNode := ⟨"A", true, "1.0", [], [], ["Z"], false⟩

/-- Node named with an embedded arrow, mutually linked with `cxQ`; the
dedup keys of the pairs (cxP, cxQ) and (cxQ, cxP) coincide. -/
def cxP : PackageNode := ⟨"a->a", true, "1.0", ["a"], ["a"], [], false⟩

/-- Mutual partner of `cxP`. -/
def cxQ : PackageNode := ⟨"a", false, "1.0", ["a->a"], ["a->a"], [], false⟩

-- ===================================================================
-- Theorems
-- ===================================================================

/-- Unfolding equation of the traversal for an empty worklist. -/
theorem collectGo_nil (nodes : List PackageNode) (sel : PackageNode → List String)
    (result : List String) : (collectGo nodes sel [] result).val = result := by
  rw [collectGo]

/-- Unfolding equation of the traversal for a nonempty worklist, stated
on the carrier lists. -/
theorem collectGo_cons (nodes : List PackageNode) (sel : PackageNode → List String)
    (dep : String) (rest result : List String) :
    (collectGo nodes sel (dep :: rest) result).val =
      if dep ∈ result then (collectGo nodes sel rest result).val
      else
        match nodes.find? (fun n => n.id == dep) with
        | none => (collectGo nodes sel rest (result ++ [dep])).val
        | some pkg =>
          (collectGo nodes sel rest
            (collectGo nodes sel (sel pkg) (result ++ [dep])).val).val := by
  rw [collectGo]
  split
  · simp_all
  · simp_all
    split <;> rename_i heq <;> rw [heq]

/-- Every worklist entry ends up in the traversal output. -/
theorem collectGo_init (nodes : List PackageNode) (sel : PackageNode → List String) :
    ∀ (wl result : List String), ∀ w ∈ wl, w ∈ (collectGo nodes sel wl result).val := by
  intro wl result
  induction wl, result using collectGo.induct nodes sel with
  | case1 result => intro w hw; simp at hw
  | case2 dep rest result hmem ih =>
    intro w hw
    rw [collectGo_cons, if_pos hmem]
    rcases List.mem_cons.mp hw with rfl | hw'
    · exact (collectGo nodes sel rest result).property w hmem
    · exact ih w hw'
  | case3 dep rest result hmem hf ih =>
    intro w hw
    rw [collectGo_cons, if_neg hmem, hf]
    rcases List.mem_cons.mp hw with rfl | hw'
    · exact (collectGo nodes sel rest _).property w (by simp)
    · exact ih w hw'
  | case4 dep rest result hmem pkg hf r1 ihInner ihW ihOuter ihOuter2 =>
    intro w hw
    rw [collectGo_cons, if_neg hmem, hf]
    rcases List.mem_cons.mp hw with rfl | hw'
    · exact (collectGo nodes sel rest _).property w
        ((collectGo nodes sel (sel pkg) (result ++ [w])).property w (by simp))
    · exact ihOuter2 w hw'

/-- The traversal output is closed under one edge step from any member it
added itself (a member outside the initial accumulator). -/
theorem collectGo_closed (nodes : List PackageNode) (sel : PackageNode → List String) :
    ∀ (wl result : List String),
    ∀ q ∈ (collectGo nodes sel wl result).val, q ∉ result →
    ∀ pkg, nodes.find? (fun n => n.id == q) = some pkg →
    ∀ d ∈ sel pkg, d ∈ (collectGo nodes sel wl result).val := by
  intro wl result
  induction wl, result using collectGo.induct nodes sel with
  | case1 result =>
    intro q hq hqr
    rw [collectGo_nil] at hq
    exact absurd hq hqr
  | case2 dep rest result hmem ih =>
    intro q hq hqr pkg hpkg d hd
    rw [collectGo_cons, if_pos hmem] at hq ⊢
    exact ih q hq hqr pkg hpkg d hd
  | case3 dep rest result hmem hf ih =>
    intro q hq hqr pkg hpkg d hd
    rw [collectGo_cons, if_neg hmem, hf] at hq ⊢
    by_cases hqd : q = dep
    · subst hqd
      rw [hpkg] at hf
      cases hf
    · refine ih q hq ?_ pkg hpkg d hd
      simp [hqd, hqr]
  | case4 dep rest result hmem pkg0 hf r1 ihInner ihW ihOuter ihOuter2 =>
    intro q hq hqr pkg hpkg d hd
    rw [collectGo_cons, if_neg hmem, hf] at hq ⊢
    by_cases hqM : q ∈ (collectGo nodes sel (sel pkg0) (result ++ [dep])).val
    · by_cases hqd : q = dep
      · subst hqd
        rw [hf] at hpkg
        injection hpkg with h
        subst h
        exact (collectGo nodes sel rest _).property d
          (collectGo_init nodes sel _ _ d hd)
      · have hq' : q ∉ result ++ [dep] := by simp [hqd, hqr]
        exact (collectGo nodes sel rest _).property d (ihInner q hqM hq' pkg hpkg d hd)
    · exact ihOuter2 q hq hqM pkg hpkg d hd

/-- The target of an avoiding path lies outside the avoided set. -/
theorem reachAvoid_not_mem {nodes : List PackageNode} {sel : PackageNode → List String}
    {avoid : List String} {p x : String} (h : ReachAvoid nodes sel avoid p x) :
    x ∉ avoid := by
  cases h with
  | refl hp => exact hp
  | step _ _ _ hd => exact hd

/-- The source of an avoiding path lies outside the avoided set. -/
theorem reachAvoid_src_not_mem {nodes : List PackageNode} {sel : PackageNode → List String}
    {avoid : List String} {p x : String} (h : ReachAvoid nodes sel avoid p x) :
    p ∉ avoid := by
  induction h with
  | refl hp => exact hp
  | step _ _ _ _ ih => exact ih

/-- Avoiding a smaller set is easier. -/
theorem reachAvoid_anti {nodes : List PackageNode} {sel : PackageNode → List String}
    {R R' : List String} (hsub : ∀ y ∈ R, y ∈ R') {p x : String}
    (h : ReachAvoid nodes sel R' p x) : ReachAvoid nodes sel R p x := by
  induction h with
  | refl hp => exact .refl _ (fun hc => hp (hsub _ hc))
  | step _ hf hd hnot ih => exact .step ih hf hd (fun hc => hnot (hsub _ hc))

/-- Avoiding paths compose when the continuation avoids at least as
much. -/
theorem reachAvoid_trans {nodes : List PackageNode} {sel : PackageNode → List String}
    {R R' : List String} (hsub : ∀ y ∈ R, y ∈ R') {p d x : String}
    (h1 : ReachAvoid nodes sel R p d) (h2 : ReachAvoid nodes sel R' d x) :
    ReachAvoid nodes sel R p x := by
  induction h2 with
  | refl _ => exact h1
  | step _ hf hd hnot ih => exact .step ih hf hd (fun hc => hnot (hsub _ hc))

/-- Soundness: every traversal output member was already accumulated or is
reachable from some worklist entry avoiding the initial accumulator. -/
theorem collectGo_sound (nodes : List PackageNode) (sel : PackageNode → List String) :
    ∀ (wl result : List String),
    ∀ x ∈ (collectGo nodes sel wl result).val,
      x ∈ result ∨ ∃ w ∈ wl, ReachAvoid nodes sel result w x := by
  intro wl result
  induction wl, result using collectGo.induct nodes sel with
  | case1 result =>
    intro x hx
    rw [collectGo_nil] at hx
    exact .inl hx
  | case2 dep rest result hmem ih =>
    intro x hx
    rw [collectGo_cons, if_pos hmem] at hx
    rcases ih x hx with h | ⟨w, hw, hra⟩
    · exact .inl h
    · exact .inr ⟨w, List.mem_cons_of_mem _ hw, hra⟩
  | case3 dep rest result hmem hf ih =>
    intro x hx
    rw [collectGo_cons, if_neg hmem, hf] at hx
    rcases ih x hx with h | ⟨w, hw, hra⟩
    · rcases List.mem_append.mp h with h' | h'
      · exact .inl h'
      · simp only [List.mem_singleton] at h'
        subst h'
        exact .inr ⟨x, List.mem_cons_self _ _, .refl x hmem⟩
    · exact .inr ⟨w, List.mem_cons_of_mem _ hw,
        reachAvoid_anti (fun y hy => List.mem_append_left _ hy) hra⟩
  | case4 dep rest result hmem pkg hf r1 ihInner ihW ihOuter ihOuter2 =>
    intro x hx
    rw [collectGo_cons, if_neg hmem, hf] at hx
    rcases ihOuter2 x hx with h | ⟨w, hw, hra⟩
    · rcases ihInner x h with h2 | ⟨d, hd, hra⟩
      · rcases List.mem_append.mp h2 with h' | h'
        · exact .inl h'
        · simp only [List.mem_singleton] at h'
          subst h'
          exact .inr ⟨x, List.mem_cons_self _ _, .refl x hmem⟩
      · have hdnot : d ∉ result ++ [dep] := reachAvoid_src_not_mem hra
        have hstep : ReachAvoid nodes sel result dep d :=
          .step (.refl dep hmem) hf hd (fun hc => hdnot (List.mem_append_left _ hc))
        exact .inr ⟨dep, List.mem_cons_self _ _,
          reachAvoid_trans (fun y hy => List.mem_append_left _ hy) hstep hra⟩
    · exact .inr ⟨w, List.mem_cons_of_mem _ hw,
        reachAvoid_anti (fun y hy =>
          (collectGo nodes sel (sel pkg) (result ++ [dep])).property y
            (List.mem_append_left _ hy)) hra⟩

/-- Completeness: every name reachable from a worklist entry avoiding the
initial accumulator is in the traversal output. -/
theorem collectGo_complete (nodes : List PackageNode) (sel : PackageNode → List String)
    {result : List String} {w x : String} (hra : ReachAvoid nodes sel result w x) :
    ∀ wl, w ∈ wl → x ∈ (collectGo nodes sel wl result).val := by
  induction hra with
  | refl hp => exact fun wl hw => collectGo_init nodes sel wl result _ hw
  | step hr hf hd hnot ih =>
    intro wl hw
    exact collectGo_closed nodes sel wl result _ (ih wl hw) (reachAvoid_not_mem hr) _ hf _ hd

/-- Forgetting the avoided set. -/
theorem reachBy_of_reachAvoid {nodes : List PackageNode} {sel : PackageNode → List String}
    {R : List String} {p x : String} (h : ReachAvoid nodes sel R p x) :
    ReachBy nodes sel p x := by
  induction h with
  | refl _ => exact .refl _
  | step _ hf hd _ ih => exact .step ih hf hd

/-- With nothing to avoid, plain reachability is avoiding reachability. -/
theorem reachAvoid_nil_of_reachBy {nodes : List PackageNode} {sel : PackageNode → List String}
    {p x : String} (h : ReachBy nodes sel p x) : ReachAvoid nodes sel [] p x := by
  induction h with
  | refl => exact .refl _ (by simp)
  | step _ hf hd ih => exact .step ih hf hd (by simp)

/-- Reachability is transitive. -/
theorem reachBy_trans {nodes : List PackageNode} {sel : PackageNode → List String}
    {p q x : String} (h1 : ReachBy nodes sel p q) (h2 : ReachBy nodes sel q x) :
    ReachBy nodes sel p x := by
  induction h2 with
  | refl => exact h1
  | step _ hf hd ih => exact .step ih hf hd

/-- C2: membership in `collectPackageTree` started from the empty visited
set is exactly reachability from the start along `depends_on` edges (the
start included, dangling names included but never expanded), and the union
of the closures of all members of a closure is that closure again
(idempotence). -/
theorem collectPackageTree_closure_correct (nodes : List PackageNode) (p : String) :
    (∀ x, x ∈ collectPackageTree p nodes [] ↔ ReachBy nodes (fun n => n.depends_on) p x) ∧
    (∀ x, (∃ m ∈ collectPackageTree p nodes [], x ∈ collectPackageTree m nodes []) ↔
       x ∈ collectPackageTree p nodes []) := by
  have hchar : ∀ q x, x ∈ collectPackageTree q nodes [] ↔
      ReachBy nodes (fun n => n.depends_on) q x := by
    intro q x
    constructor
    · intro hx
      rcases collectGo_sound nodes _ [q] [] x hx with h | ⟨w, hw, hra⟩
      · simp at h
      · simp only [List.mem_singleton] at hw
        subst hw
        exact reachBy_of_reachAvoid hra
    · intro hr
      exact collectGo_complete nodes _ (reachAvoid_nil_of_reachBy hr) [q] (by simp)
  refine ⟨hchar p, ?_⟩
  intro x
  constructor
  · rintro ⟨m, hm, hx⟩
    exact (hchar p x).mpr (reachBy_trans ((hchar p m).mp hm) ((hchar m x).mp hx))
  · intro hx
    exact ⟨x, hx, (hchar x x).mpr (.refl x)⟩


/-- Helper for the count invariant: the explicit (non-broken) count and the
broken count are disjoint, so their sum is bounded by the length. -/
theorem explicit_add_broken_le (nodes : List PackageNode) :
    (nodes.filter (fun n => n.explicit && !n.broken)).length
      + (nodes.filter (fun n => n.broken)).length ≤ nodes.length := by
  induction nodes with
  | nil => simp
  | cons n l ih =>
    cases hb : n.broken <;> cases he : n.explicit <;>
      simp [List.filter_cons, hb, he] <;> omega

/-- C4: the reported counts satisfy `explicit + dependency + broken =
total`, where `explicit` counts non-broken explicit nodes, `broken` counts
broken nodes, `total` is the list length, and `dependency` is the
difference `total - explicit - broken`. -/
theorem countPackages_invariant (nodes : List PackageNode) :
    (countPackages nodes).explicit + (countPackages nodes).dependency
        + (countPackages nodes).broken = (countPackages nodes).total ∧
    (countPackages nodes).explicit
        = (nodes.filter (fun n => n.explicit && !n.broken)).length ∧
    (countPackages nodes).broken = (nodes.filter (fun n => n.broken)).length ∧
    (countPackages nodes).total = nodes.length ∧
    (countPackages nodes).dependency
        = (countPackages nodes).total - (countPackages nodes).explicit
            - (countPackages nodes).broken := by
  have h := explicit_add_broken_le nodes
  refine ⟨?_, rfl, rfl, rfl, rfl⟩
  simp only [countPackages]
  omega

/-- C3 counterexample: a synthetic broken record is classified as orphaned
by `isOrphaned` even though it is broken, so the claimed equivalence
(orphaned iff non-explicit, no requirers, and not broken) is false on this
record. -/
theorem isOrphaned_broken_counterexample :
    ¬ (isOrphaned (syntheticNode "ghost") = true ↔
        ((syntheticNode "ghost").explicit = false ∧
         (syntheticNode "ghost").required_by = [] ∧
         (syntheticNode "ghost").broken = false)) := by
  decide

/-- C3 (amended): a record is classified as orphaned iff its explicit flag
is false and its `required_by` list is empty; the broken flag is not
consulted. -/
theorem isOrphaned_spec (pkg : PackageNode) :
    isOrphaned pkg = true ↔ (pkg.explicit = false ∧ pkg.required_by = []) := by
  simp [isOrphaned, List.length_eq_zero]

/-- C9: `first` returns the first `n` entries (the prefix whose complement
is `drop n`), `last` the last `n` entries (the suffix whose complement is
`take (len - n)`); both clamp to the whole list when `n` exceeds the
length, and `first` with `n = 0` is empty. -/
theorem firstN_lastN_clamping (l : List String) (n : Nat) :
    firstN l n = l.take n ∧
    lastN l n = l.drop (l.length - n) ∧
    (firstN l n).length = min n l.length ∧
    (lastN l n).length = min n l.length ∧
    firstN l n ++ l.drop n = l ∧
    l.take (l.length - n) ++ lastN l n = l ∧
    (l.length ≤ n → firstN l n = l ∧ lastN l n = l) ∧
    firstN l 0 = [] := by
  have hdrop : lastN l n = l.drop (l.length - n) := by
    simp only [lastN]
    congr 1
    split <;> omega
  refine ⟨rfl, hdrop, ?_, ?_, ?_, ?_, ?_, ?_⟩
  · simp [firstN]
  · simp [hdrop]
    omega
  · simp [firstN]
  · rw [hdrop, List.take_append_drop]
  · intro hle
    constructor
    · simp [firstN, List.take_of_length_le hle]
    · rw [hdrop]
      have : l.length - n = 0 := by omega
      simp [this]
  · simp [firstN]

/-- C9 witness: on the two-element list with `n = 5` both selections clamp
to the whole list. -/
theorem firstN_lastN_clamping_witness :
    firstN ["a", "b"] 5 = ["a", "b"] ∧ lastN ["a", "b"] 5 = ["a", "b"] :=
  (firstN_lastN_clamping ["a", "b"] 5).2.2.2.2.2.2.1 (by decide)

/-- C8 counterexample: with one explicit package and `n = 2` the random
selection does not fail; it returns the whole list (so it does not select
exactly `n` packages either). -/
theorem randomSelect_no_error_counterexample :
    randomSelect ["pkgA"] 2 = ["pkgA"] ∧ (randomSelect ["pkgA"] 2).length ≠ 2 := by
  decide

/-- C8 (amended): for `n ≥ 1` over a nonempty random permutation of the
explicit list, `random` selects the first `min n length` entries — all
distinct members of the explicit list, without replacement, and the entire
list when `n` exceeds the count; no `InvalidArgument` failure occurs. -/
theorem randomSelect_clamps (explicitList perm : List String) (n : Nat)
    (hperm : perm.Perm explicitList) (hne : perm ≠ []) (hn : 1 ≤ n) :
    (randomSelect perm n).length = min n perm.length ∧
    (∀ x ∈ randomSelect perm n, x ∈ explicitList) ∧
    (perm.Nodup → (randomSelect perm n).Nodup) ∧
    (perm.length ≤ n → randomSelect perm n = perm) := by
  have htake : randomSelect perm n = perm.take n := by
    rw [randomSelect, if_neg]
    simp only [List.isEmpty_iff, ← List.length_eq_zero, List.length_take]
    rcases perm with _ | ⟨a, l⟩
    · exact absurd rfl hne
    · simp
      omega
  rw [htake]
  refine ⟨by simp, ?_, ?_, ?_⟩
  · intro x hx
    exact hperm.mem_iff.mp (List.mem_of_mem_take hx)
  · intro hnd
    exact hnd.sublist (List.take_sublist n perm)
  · intro hle
    exact List.take_of_length_le hle

/-- C8 witness: drawing 2 from a 3-permutation yields 2 distinct members of
the explicit list. -/
theorem randomSelect_clamps_witness :
    (randomSelect ["b", "a", "c"] 2).length = min 2 3 ∧
    (∀ x ∈ randomSelect ["b", "a", "c"] 2, x ∈ ["a", "b", "c"]) :=
  ⟨(randomSelect_clamps ["a", "b", "c"] ["b", "a", "c"] 2 (by decide) (by decide)
      (by decide)).1,
   (randomSelect_clamps ["a", "b", "c"] ["b", "a", "c"] 2 (by decide) (by decide)
      (by decide)).2.1⟩

/-- C7 counterexample: `sortPackagesByName` is called on the array itself
(`packages.sort(...)`), which reorders the argument in place; on an
out-of-order two-element list the argument's post-call contents differ from
the input, so not every query operation leaves its input unchanged. -/
theorem sortPackagesByName_mutates_counterexample :
    (sortPackagesByNameRun [exB0, exA]).1 ≠ [exB0, exA] := by
  have h : (sortPackagesByNameRun [exB0, exA]).1 = [exA, exB0] := by
    simp only [sortPackagesByNameRun, sortPackagesByName]
    simp [List.insertionSort, List.orderedInsert, pkgLE, exA, exB0]
    decide
  rw [h]
  decide

/-- C7 (amended): closure, sub-graph extraction, broken-node synthesis and
counting leave their input node list unchanged; `sortPackagesByName` sorts
the array in place — after the call the argument holds the alphabetically
ordered permutation of its previous contents, which is also the returned
list. -/
theorem queryEngine_purity (nodes : List PackageNode) (packageId selectedId : String)
    (result : List String) (direction : DependencyDirection) :
    (processBrokenDependenciesRun nodes).1 = nodes ∧
    (countPackagesRun nodes).1 = nodes ∧
    (collectPackageTreeRun packageId nodes result).1 = nodes ∧
    (collectReversePackageTreeRun packageId nodes result).1 = nodes ∧
    (subGraphDataRun nodes selectedId direction).1 = nodes ∧
    (sortPackagesByNameRun nodes).1 = sortPackagesByName nodes ∧
    (sortPackagesByNameRun nodes).2 = (sortPackagesByNameRun nodes).1 ∧
    (sortPackagesByName nodes).Perm nodes ∧
    List.Sorted pkgLE (sortPackagesByName nodes) :=
  ⟨rfl, rfl, rfl, rfl, rfl, rfl, rfl, List.perm_insertionSort pkgLE nodes,
    List.sorted_insertionSort pkgLE nodes⟩

/-- C10 counterexample: cleanup only removes dangling `required_by`
entries, it never adds one.  With real nodes A (depends on B) and B (empty
`required_by`) the cleaned graph still has B in A's `depends_on` but A
absent from B's `required_by`, so the symmetry does not hold for every
cleaned graph. -/
theorem requiredBy_symmetry_counterexample :
    processBrokenDependencies [exA, exB0] = [exA, exB0] ∧
    exB0.id ∈ exA.depends_on ∧ exA.broken = false ∧ exB0.broken = false ∧
    exA.id ∉ exB0.required_by := by
  decide

/-- C10 (amended): provided the input graph already satisfies the symmetry
for pairs with a present target — whenever `b.id ∈ a.depends_on` for nodes
`a, b` of the graph, `a.id ∈ b.required_by` — the cleaned output satisfies
it for all real (non-broken) records: cleanup drops only references to
names absent from the graph, never a reverse edge whose source is a real
node. -/
theorem requiredBy_symmetry_preserved (nodes : List PackageNode)
    (hsym : ∀ a ∈ nodes, ∀ b ∈ nodes, b.id ∈ a.depends_on → a.id ∈ b.required_by) :
    ∀ A ∈ processBrokenDependencies nodes, ∀ B ∈ processBrokenDependencies nodes,
      A.broken = false → B.broken = false →
      B.id ∈ A.depends_on → A.id ∈ B.required_by := by
  intro A hA B hB hAb hBb hdep
  by_cases hn : nodes.isEmpty
  · rw [processBrokenDependencies, if_pos hn] at hA
    exact absurd hA (List.not_mem_nil A)
  · rw [processBrokenDependencies, if_neg hn] at hA hB
    simp only [List.mem_append] at hA hB
    rcases hA with hA | hA
    · rcases hB with hB | hB
      · obtain ⟨nA, hnA, rfl⟩ := List.mem_map.mp hA
        obtain ⟨nB, hnB, rfl⟩ := List.mem_map.mp hB
        simp only [cleanNode, List.mem_filter] at hdep ⊢
        refine ⟨hsym nA hnA nB hnB hdep, ?_⟩
        simp only [nodeMapKeys, List.mem_map, decide_eq_true_eq]
        exact ⟨nA, hnA, rfl⟩
      · obtain ⟨d, hd, rfl⟩ := List.mem_map.mp hB
        simp [syntheticNode] at hBb
    · obtain ⟨d, hd, rfl⟩ := List.mem_map.mp hA
      simp [syntheticNode] at hAb

/-- C10 witness: on the symmetric two-node graph A depends on B, B requires
A; the theorem yields A's id inside B's requirers. -/
theorem requiredBy_symmetry_preserved_witness : exA.id ∈ exB.required_by :=
  requiredBy_symmetry_preserved [exA, exB] (by decide) exA (by decide) exB (by decide)
    rfl rfl (by decide)

/-- Membership in the inner dangling-name fold: a name is collected iff it
was already collected or occurs in the scanned `depends_on` list and is not
a key of the graph. -/
theorem brokenFold_inner_mem (keys deps acc : List String) (x : String) :
    x ∈ deps.foldl (fun acc dep =>
        if dep ∈ keys then acc else if dep ∈ acc then acc else acc ++ [dep]) acc ↔
      x ∈ acc ∨ (x ∈ deps ∧ x ∉ keys) := by
  induction deps generalizing acc with
  | nil => simp
  | cons d ds ih =>
    simp only [List.foldl_cons]
    by_cases hk : d ∈ keys
    · rw [if_pos hk, ih]
      constructor
      · rintro (h | ⟨h1, h2⟩)
        · exact .inl h
        · exact .inr ⟨List.mem_cons_of_mem _ h1, h2⟩
      · rintro (h | ⟨h1, h2⟩)
        · exact .inl h
        · rcases List.mem_cons.mp h1 with rfl | h1'
          · exact absurd hk h2
          · exact .inr ⟨h1', h2⟩
    · rw [if_neg hk]
      by_cases ha : d ∈ acc
      · rw [if_pos ha, ih]
        constructor
        · rintro (h | ⟨h1, h2⟩)
          · exact .inl h
          · exact .inr ⟨List.mem_cons_of_mem _ h1, h2⟩
        · rintro (h | ⟨h1, h2⟩)
          · exact .inl h
          · rcases List.mem_cons.mp h1 with rfl | h1'
            · exact .inl ha
            · exact .inr ⟨h1', h2⟩
      · rw [if_neg ha, ih]
        constructor
        · rintro (h | ⟨h1, h2⟩)
          · rcases List.mem_append.mp h with h' | h'
            · exact .inl h'
            · simp only [List.mem_singleton] at h'
              subst h'
              exact .inr ⟨List.mem_cons_self _ _, hk⟩
          · exact .inr ⟨List.mem_cons_of_mem _ h1, h2⟩
        · rintro (h | ⟨h1, h2⟩)
          · exact .inl (List.mem_append_left _ h)
          · rcases List.mem_cons.mp h1 with rfl | h1'
            · exact .inl (List.mem_append_right _ (List.mem_singleton.mpr rfl))
            · exact .inr ⟨h1', h2⟩

/-- The inner dangling-name fold preserves freedom from duplicates. -/
theorem brokenFold_inner_nodup (keys deps acc : List String) (h : acc.Nodup) :
    (deps.foldl (fun acc dep =>
        if dep ∈ keys then acc else if dep ∈ acc then acc else acc ++ [dep]) acc).Nodup := by
  induction deps generalizing acc with
  | nil => simpa
  | cons d ds ih =>
    simp only [List.foldl_cons]
    by_cases hk : d ∈ keys
    · rw [if_pos hk]
      exact ih _ h
    · rw [if_neg hk]
      by_cases ha : d ∈ acc
      · rw [if_pos ha]
        exact ih _ h
      · rw [if_neg ha]
        refine ih _ ?_
        simp [List.nodup_append, h, ha]

/-- Membership in the outer dangling-name fold over a node list. -/
theorem brokenFold_outer_mem (keys : List String) (ns : List PackageNode)
    (acc : List String) (x : String) :
    x ∈ ns.foldl (fun acc node => node.depends_on.foldl (fun acc dep =>
        if dep ∈ keys then acc else if dep ∈ acc then acc else acc ++ [dep]) acc) acc ↔
      x ∈ acc ∨ ∃ n ∈ ns, x ∈ n.depends_on ∧ x ∉ keys := by
  induction ns generalizing acc with
  | nil => simp
  | cons n ns ih =>
    simp only [List.foldl_cons]
    rw [ih, brokenFold_inner_mem]
    constructor
    · rintro ((h | ⟨h1, h2⟩) | ⟨m, hm, hx⟩)
      · exact .inl h
      · exact .inr ⟨n, List.mem_cons_self _ _, h1, h2⟩
      · exact .inr ⟨m, List.mem_cons_of_mem _ hm, hx⟩
    · rintro (h | ⟨m, hm, hx⟩)
      · exact .inl (.inl h)
      · rcases List.mem_cons.mp hm with rfl | hm'
        · exact .inl (.inr hx)
        · exact .inr ⟨m, hm', hx⟩

/-- The outer dangling-name fold preserves freedom from duplicates. -/
theorem brokenFold_outer_nodup (keys : List String) (ns : List PackageNode)
    (acc : List String) (h : acc.Nodup) :
    (ns.foldl (fun acc node => node.depends_on.foldl (fun acc dep =>
        if dep ∈ keys then acc else if dep ∈ acc then acc else acc ++ [dep]) acc) acc).Nodup := by
  induction ns generalizing acc with
  | nil => simpa
  | cons n ns ih =>
    simp only [List.foldl_cons]
    exact ih _ (brokenFold_inner_nodup keys n.depends_on acc h)

/-- Filtering a duplicate-free list for one of its members yields exactly
that member. -/
theorem filter_beq_of_nodup (l : List String) (m : String) (hnd : l.Nodup)
    (hm : m ∈ l) : l.filter (fun d => d == m) = [m] := by
  induction l with
  | nil => cases hm
  | cons a l ih =>
    rcases List.mem_cons.mp hm with rfl | hm'
    · simp only [List.filter_cons]
      rw [if_pos (by simp)]
      have hnot : m ∉ l := (List.nodup_cons.mp hnd).1
      have hzero : l.filter (fun d => d == m) = [] :=
        List.filter_eq_nil_iff.mpr (fun x hx => by
          simp only [beq_iff_eq]
          rintro rfl
          exact hnot hx)
      rw [hzero]
    · have hna : a ≠ m := by
        rintro rfl
        exact (List.nodup_cons.mp hnd).1 hm'
      simp only [List.filter_cons]
      rw [if_neg (by simp [hna])]
      exact ih (List.nodup_cons.mp hnd).2 hm'

/-- Filtering synthetic records by id is filtering the underlying names. -/
theorem filter_map_syntheticNode (l : List String) (m : String) :
    (l.map syntheticNode).filter (fun r => r.id == m) =
      (l.filter (fun d => d == m)).map syntheticNode := by
  induction l with
  | nil => rfl
  | cons a l ih =>
    simp only [List.map_cons, List.filter_cons]
    by_cases h : a = m
    · subst h
      rw [if_pos (by simp [syntheticNode]), if_pos (by simp)]
      simp [ih]
    · rw [if_neg (by simp [syntheticNode, h]), if_neg (by simp [h])]
      exact ih

/-- C1 counterexample: a dangling name referenced only from
`optional_depends_on` produces no synthetic record — synthesis scans
`depends_on` only, so the claim's "dependsOn/optionalDependsOn" coverage is
false. -/
theorem processBrokenDependencies_optional_counterexample :
    "Z" ∈ optNode.optional_depends_on ∧
    "Z" ∉ [optNode].map (fun n => n.id) ∧
    processBrokenDependencies [optNode] = [optNode] ∧
    (processBrokenDependencies [optNode]).filter (fun r => r.id == "Z") = [] := by
  decide

/-- C1 (amended): every `depends_on` target name absent from the graph keys
yields exactly one synthetic record (name, broken, version "missing", empty
edges), deduplicated across referrers and appended after the real records;
every real record keeps its position, identity and `depends_on`, and has
exactly its dangling `required_by` entries dropped; the appended tail holds
only synthetic records for dangling `depends_on` targets.
`optional_depends_on` targets are ignored by the synthesis. -/
theorem processBrokenDependencies_synthesis (nodes : List PackageNode) :
    (∀ m, m ∉ nodes.map (fun n => n.id) → (∃ n ∈ nodes, m ∈ n.depends_on) →
      (processBrokenDependencies nodes).filter (fun r => r.id == m) = [syntheticNode m]) ∧
    (∀ i, i < nodes.length → ∃ nd cd, nodes[i]? = some nd ∧
      (processBrokenDependencies nodes)[i]? = some cd ∧
      cd.id = nd.id ∧ cd.explicit = nd.explicit ∧ cd.version = nd.version ∧
      cd.broken = nd.broken ∧ cd.depends_on = nd.depends_on ∧
      cd.optional_depends_on = nd.optional_depends_on ∧
      cd.required_by = nd.required_by.filter (fun dep => dep ∈ nodes.map (fun n => n.id))) ∧
    (∀ r ∈ (processBrokenDependencies nodes).drop nodes.length,
      r = syntheticNode r.id ∧ r.id ∉ nodes.map (fun n => n.id) ∧
      ∃ n ∈ nodes, r.id ∈ n.depends_on) := by
  by_cases hnil : nodes = []
  · subst hnil
    refine ⟨?_, ?_, ?_⟩
    · rintro m hm ⟨n, hn, -⟩
      cases hn
    · intro i h
      simp at h
    · intro r hr
      simp [processBrokenDependencies] at hr
  · have hne : ¬ nodes.isEmpty := by simpa [List.isEmpty_iff] using hnil
    have hout : processBrokenDependencies nodes =
        cleanedNodes nodes ++ (brokenDepsList nodes).map syntheticNode := by
      rw [processBrokenDependencies, if_neg hne]
    have hlc : (cleanedNodes nodes).length = nodes.length := by
      simp [cleanedNodes]
    refine ⟨?_, ?_, ?_⟩
    · intro m hm hex
      obtain ⟨n, hn, hdep⟩ := hex
      rw [hout, List.filter_append]
      have h1 : (cleanedNodes nodes).filter (fun r => r.id == m) = [] := by
        apply List.filter_eq_nil_iff.mpr
        intro r hr
        obtain ⟨n2, hn2, rfl⟩ := List.mem_map.mp hr
        intro heq
        rw [beq_iff_eq] at heq
        have hid : n2.id = m := heq
        exact hm (hid ▸ List.mem_map_of_mem (fun n => n.id) hn2)
      have hbromem : m ∈ brokenDepsList nodes := by
        rw [brokenDepsList, brokenFold_outer_mem]
        refine .inr ⟨cleanNode (nodeMapKeys nodes) n, List.mem_map_of_mem _ hn, hdep, ?_⟩
        simpa [nodeMapKeys] using hm
      have hnd : (brokenDepsList nodes).Nodup := by
        rw [brokenDepsList]
        exact brokenFold_outer_nodup _ _ _ (by simp)
      rw [h1, filter_map_syntheticNode, filter_beq_of_nodup _ _ hnd hbromem]
      simp
    · intro i h
      have hi : i < (cleanedNodes nodes).length := by
        rw [hlc]
        exact h
      refine ⟨nodes.get ⟨i, h⟩, cleanNode (nodeMapKeys nodes) (nodes.get ⟨i, h⟩),
        List.getElem?_eq_getElem h, ?_, rfl, rfl, rfl, rfl, rfl, rfl, rfl⟩
      rw [hout, List.getElem?_append_left hi, cleanedNodes, List.getElem?_map,
        List.getElem?_eq_getElem h]
      rfl
    · intro r hr
      rw [hout, ← hlc, List.drop_left] at hr
      obtain ⟨d, hd, rfl⟩ := List.mem_map.mp hr
      have hmem := (brokenFold_outer_mem (nodeMapKeys nodes) (cleanedNodes nodes) [] d).mp
        (by rw [← brokenDepsList]; exact hd)
      rcases hmem with habs | ⟨n, hn, hdep, hk⟩
      · cases habs
      · obtain ⟨n0, hn0, rfl⟩ := List.mem_map.mp hn
        refine ⟨rfl, ?_, ⟨n0, hn0, hdep⟩⟩
        simpa [nodeMapKeys] using hk

/-- C1 witness: on the end-to-end example graph the dangling name "C"
yields exactly one synthetic record, and that record sits in the appended
tail and reconstructs from its own name. -/
theorem processBrokenDependencies_synthesis_witness :
    (processBrokenDependencies [exA, exB]).filter (fun r => r.id == "C") =
      [syntheticNode "C"] ∧
    syntheticNode "C" = syntheticNode (syntheticNode "C").id :=
  ⟨(processBrokenDependencies_synthesis [exA, exB]).1 "C" (by decide)
      ⟨exB, by decide, by decide⟩,
   ((processBrokenDependencies_synthesis [exA, exB]).2.2 (syntheticNode "C")
      (by decide)).1⟩

/-- C5: on the spec's end-to-end example graph (A explicit depending on B,
B a dependency depending on the absent C and required by A) broken
synthesis yields exactly the nodes A, B and a synthetic broken C; the
counts are explicit 1, dependency 1, broken 1, total 3; the forward closure
from A is the set containing A, B and C (in traversal order); and the
reverse closure from B is the set containing B and A. -/
theorem endToEnd_example :
    processBrokenDependencies [exA, exB] = [exA, exB, syntheticNode "C"] ∧
    countPackages (processBrokenDependencies [exA, exB]) =
      { explicit := 1, dependency := 1, broken := 1, total := 3 } ∧
    collectPackageTree "A" (processBrokenDependencies [exA, exB]) [] = ["A", "B", "C"] ∧
    collectReversePackageTree "B" (processBrokenDependencies [exA, exB]) [] = ["B", "A"] := by
  have hout : processBrokenDependencies [exA, exB] = [exA, exB, syntheticNode "C"] := by
    decide
  refine ⟨hout, by decide, ?_, ?_⟩
  · rw [hout]
    simp [collectPackageTree, collectGo, exA, exB, syntheticNode, List.find?]
  · rw [hout]
    simp [collectReversePackageTree, collectGo, exA, exB, syntheticNode, List.find?]

/-- Invariants of one link-building pass over one adjacency list, generic
in the pair constructor `mk` ((node.id, dep) for the forward pass,
(parent, node.id) for the reverse pass): the key set mirrors the link list,
keys stay duplicate-free, endpoints stay inside `gN`, the pass only
appends, every new link comes from an in-tree entry, and — when the dedup
key is injective on `gN` — every in-tree entry's link is present
afterwards. -/
theorem linkFold_spec (tree gN : List String) (mk : String → String × String)
    (entries : List String) (st : LinkState)
    (hkeys : st.1 = st.2.map (fun e => linkKey e.1 e.2))
    (hnd : st.1.Nodup)
    (hend : ∀ e ∈ st.2, e.1 ∈ gN ∧ e.2 ∈ gN)
    (hmkend : ∀ x ∈ entries, (mk x).1 ∈ gN ∧ (mk x).2 ∈ gN) :
    ∀ out, out = entries.foldl (fun st x =>
        if x ∈ tree then
          if linkKey (mk x).1 (mk x).2 ∈ st.1 then st
          else (st.1 ++ [linkKey (mk x).1 (mk x).2], st.2 ++ [mk x])
        else st) st →
      out.1 = out.2.map (fun e => linkKey e.1 e.2) ∧
      out.1.Nodup ∧
      (∀ e ∈ out.2, e.1 ∈ gN ∧ e.2 ∈ gN) ∧
      (∀ e ∈ st.2, e ∈ out.2) ∧
      (∀ e ∈ out.2, e ∈ st.2 ∨ ∃ x ∈ entries, x ∈ tree ∧ e = mk x) ∧
      ((∀ e1 e2 : String × String, e1.1 ∈ gN → e1.2 ∈ gN → e2.1 ∈ gN → e2.2 ∈ gN →
          linkKey e1.1 e1.2 = linkKey e2.1 e2.2 → e1 = e2) →
        ∀ x ∈ entries, x ∈ tree → mk x ∈ out.2) := by
  induction entries generalizing st with
  | nil =>
    rintro out rfl
    refine ⟨hkeys, hnd, hend, fun e he => he, fun e he => .inl he, ?_⟩
    rintro _ x hx
    cases hx
  | cons y ys ih =>
    rintro out rfl
    simp only [List.foldl_cons]
    by_cases hyt : y ∈ tree
    · rw [if_pos hyt]
      by_cases hkey : linkKey (mk y).1 (mk y).2 ∈ st.1
      · rw [if_pos hkey]
        obtain ⟨r1, r2, r3, r4, r5, r6⟩ :=
          ih st hkeys hnd hend (fun x hx => hmkend x (List.mem_cons_of_mem _ hx)) _ rfl
        refine ⟨r1, r2, r3, r4, ?_, ?_⟩
        · intro e he
          rcases r5 e he with h | ⟨x, hx, hxt, hxe⟩
          · exact .inl h
          · exact .inr ⟨x, List.mem_cons_of_mem _ hx, hxt, hxe⟩
        · intro hinj x hx hxt
          rcases List.mem_cons.mp hx with rfl | hx'
          · rw [hkeys] at hkey
            obtain ⟨e, he, hkeq⟩ := List.mem_map.mp hkey
            have heq := hinj e (mk x) (hend e he).1 (hend e he).2
              (hmkend x (List.mem_cons_self _ _)).1 (hmkend x (List.mem_cons_self _ _)).2 hkeq
            exact r4 (mk x) (heq ▸ he)
          · exact r6 hinj x hx' hxt
      · rw [if_neg hkey]
        have hkeys' : (st.1 ++ [linkKey (mk y).1 (mk y).2] : List String) =
            (st.2 ++ [mk y]).map (fun e => linkKey e.1 e.2) := by
          simp [hkeys]
        have hnd' : (st.1 ++ [linkKey (mk y).1 (mk y).2]).Nodup := by
          simp [List.nodup_append, hnd, hkey]
        have hend' : ∀ e ∈ st.2 ++ [mk y], e.1 ∈ gN ∧ e.2 ∈ gN := by
          intro e he
          rcases List.mem_append.mp he with h | h
          · exact hend e h
          · simp only [List.mem_singleton] at h
            subst h
            exact hmkend y (List.mem_cons_self _ _)
        obtain ⟨r1, r2, r3, r4, r5, r6⟩ :=
          ih (st.1 ++ [linkKey (mk y).1 (mk y).2], st.2 ++ [mk y]) hkeys' hnd' hend'
            (fun x hx => hmkend x (List.mem_cons_of_mem _ hx)) _ rfl
        refine ⟨r1, r2, r3, ?_, ?_, ?_⟩
        · intro e he
          exact r4 e (List.mem_append_left _ he)
        · intro e he
          rcases r5 e he with h | ⟨x, hx, hxt, hxe⟩
          · rcases List.mem_append.mp h with h' | h'
            · exact .inl h'
            · simp only [List.mem_singleton] at h'
              exact .inr ⟨y, List.mem_cons_self _ _, hyt, h'⟩
          · exact .inr ⟨x, List.mem_cons_of_mem _ hx, hxt, hxe⟩
        · intro hinj x hx hxt
          rcases List.mem_cons.mp hx with rfl | hx'
          · exact r4 (mk x) (List.mem_append_right _ (List.mem_singleton.mpr rfl))
          · exact r6 hinj x hx' hxt
    · rw [if_neg hyt]
      obtain ⟨r1, r2, r3, r4, r5, r6⟩ :=
        ih st hkeys hnd hend (fun x hx => hmkend x (List.mem_cons_of_mem _ hx)) _ rfl
      refine ⟨r1, r2, r3, r4, ?_, ?_⟩
      · intro e he
        rcases r5 e he with h | ⟨x, hx, hxt, hxe⟩
        · exact .inl h
        · exact .inr ⟨x, List.mem_cons_of_mem _ hx, hxt, hxe⟩
      · intro hinj x hx hxt
        rcases List.mem_cons.mp hx with rfl | hx'
        · exact absurd hxt hyt
        · exact r6 hinj x hx' hxt

/-- Invariants of `subGraphStep`: one node's forward and/or reverse pass,
by direction. -/
theorem subGraphStep_spec (direction : DependencyDirection) (tree gN : List String)
    (n : PackageNode) (st : LinkState)
    (hkeys : st.1 = st.2.map (fun e => linkKey e.1 e.2))
    (hnd : st.1.Nodup)
    (hend : ∀ e ∈ st.2, e.1 ∈ gN ∧ e.2 ∈ gN)
    (hnn : n.id ∈ gN ∧ (∀ d ∈ n.depends_on, d ∈ gN) ∧ (∀ p ∈ n.required_by, p ∈ gN)) :
    ∀ out, out = subGraphStep direction tree st n →
      out.1 = out.2.map (fun e => linkKey e.1 e.2) ∧
      out.1.Nodup ∧
      (∀ e ∈ out.2, e.1 ∈ gN ∧ e.2 ∈ gN) ∧
      (∀ e ∈ st.2, e ∈ out.2) ∧
      (∀ e ∈ out.2, e ∈ st.2 ∨
        ((direction = DependencyDirection.forward ∨ direction = DependencyDirection.both) ∧
          e.1 = n.id ∧ e.2 ∈ n.depends_on ∧ e.2 ∈ tree) ∨
        ((direction = DependencyDirection.reverse ∨ direction = DependencyDirection.both) ∧
          e.2 = n.id ∧ e.1 ∈ n.required_by ∧ e.1 ∈ tree)) ∧
      ((∀ e1 e2 : String × String, e1.1 ∈ gN → e1.2 ∈ gN → e2.1 ∈ gN → e2.2 ∈ gN →
          linkKey e1.1 e1.2 = linkKey e2.1 e2.2 → e1 = e2) →
        (((direction = DependencyDirection.forward ∨ direction = DependencyDirection.both) →
            ∀ d ∈ n.depends_on, d ∈ tree → (n.id, d) ∈ out.2) ∧
         ((direction = DependencyDirection.reverse ∨ direction = DependencyDirection.both) →
            ∀ p ∈ n.required_by, p ∈ tree → (p, n.id) ∈ out.2))) := by
  rintro out rfl
  simp only [subGraphStep]
  by_cases hF : direction = DependencyDirection.forward ∨ direction = DependencyDirection.both <;>
    by_cases hR : direction = DependencyDirection.reverse ∨ direction = DependencyDirection.both
  · rw [if_pos hF, if_pos hR]
    obtain ⟨f1, f2, f3, f4, f5, f6⟩ :=
      linkFold_spec tree gN (fun d => (n.id, d)) n.depends_on st hkeys hnd hend
        (fun d hd => ⟨hnn.1, hnn.2.1 d hd⟩) (addForwardLinks n tree st) rfl
    obtain ⟨g1, g2, g3, g4, g5, g6⟩ :=
      linkFold_spec tree gN (fun p => (p, n.id)) n.required_by (addForwardLinks n tree st)
        f1 f2 f3 (fun p hp => ⟨hnn.2.2 p hp, hnn.1⟩)
        (addReverseLinks n tree (addForwardLinks n tree st)) rfl
    refine ⟨g1, g2, g3, fun e he => g4 e (f4 e he), ?_, ?_⟩
    · intro e he
      rcases g5 e he with h | ⟨p, hp, hpt, rfl⟩
      · rcases f5 e h with h' | ⟨d, hd, hdt, rfl⟩
        · exact .inl h'
        · exact .inr (.inl ⟨hF, rfl, hd, hdt⟩)
      · exact .inr (.inr ⟨hR, rfl, hp, hpt⟩)
    · intro hinj
      exact ⟨fun _ d hd hdt => g4 _ (f6 hinj d hd hdt),
        fun _ p hp hpt => g6 hinj p hp hpt⟩
  · rw [if_pos hF, if_neg hR]
    obtain ⟨f1, f2, f3, f4, f5, f6⟩ :=
      linkFold_spec tree gN (fun d => (n.id, d)) n.depends_on st hkeys hnd hend
        (fun d hd => ⟨hnn.1, hnn.2.1 d hd⟩) (addForwardLinks n tree st) rfl
    refine ⟨f1, f2, f3, f4, ?_, ?_⟩
    · intro e he
      rcases f5 e he with h | ⟨d, hd, hdt, rfl⟩
      · exact .inl h
      · exact .inr (.inl ⟨hF, rfl, hd, hdt⟩)
    · intro hinj
      exact ⟨fun _ d hd hdt => f6 hinj d hd hdt, fun h => absurd h hR⟩
  · rw [if_neg hF, if_pos hR]
    obtain ⟨g1, g2, g3, g4, g5, g6⟩ :=
      linkFold_spec tree gN (fun p => (p, n.id)) n.required_by st hkeys hnd hend
        (fun p hp => ⟨hnn.2.2 p hp, hnn.1⟩) (addReverseLinks n tree st) rfl
    refine ⟨g1, g2, g3, g4, ?_, ?_⟩
    · intro e he
      rcases g5 e he with h | ⟨p, hp, hpt, rfl⟩
      · exact .inl h
      · exact .inr (.inr ⟨hR, rfl, hp, hpt⟩)
    · intro hinj
      exact ⟨fun h => absurd h hF, fun _ p hp hpt => g6 hinj p hp hpt⟩
  · rw [if_neg hF, if_neg hR]
    exact ⟨hkeys, hnd, hend, fun e he => he, fun e he => .inl he,
      fun _ => ⟨fun h => absurd h hF, fun h => absurd h hR⟩⟩

/-- Invariants of the whole link-building fold over the included nodes. -/
theorem subGraphFold_spec (direction : DependencyDirection) (tree gN : List String)
    (ns : List PackageNode) (st : LinkState)
    (hns : ∀ n ∈ ns, n.id ∈ gN ∧ (∀ d ∈ n.depends_on, d ∈ gN) ∧
      (∀ p ∈ n.required_by, p ∈ gN))
    (hkeys : st.1 = st.2.map (fun e => linkKey e.1 e.2))
    (hnd : st.1.Nodup)
    (hend : ∀ e ∈ st.2, e.1 ∈ gN ∧ e.2 ∈ gN) :
    ∀ out, out = ns.foldl (subGraphStep direction tree) st →
      out.1 = out.2.map (fun e => linkKey e.1 e.2) ∧
      out.1.Nodup ∧
      (∀ e ∈ out.2, e.1 ∈ gN ∧ e.2 ∈ gN) ∧
      (∀ e ∈ st.2, e ∈ out.2) ∧
      (∀ e ∈ out.2, e ∈ st.2 ∨ ∃ n ∈ ns,
        ((direction = DependencyDirection.forward ∨ direction = DependencyDirection.both) ∧
          e.1 = n.id ∧ e.2 ∈ n.depends_on ∧ e.2 ∈ tree) ∨
        ((direction = DependencyDirection.reverse ∨ direction = DependencyDirection.both) ∧
          e.2 = n.id ∧ e.1 ∈ n.required_by ∧ e.1 ∈ tree)) ∧
      ((∀ e1 e2 : String × String, e1.1 ∈ gN → e1.2 ∈ gN → e2.1 ∈ gN → e2.2 ∈ gN →
          linkKey e1.1 e1.2 = linkKey e2.1 e2.2 → e1 = e2) →
        ∀ n ∈ ns,
          (((direction = DependencyDirection.forward ∨ direction = DependencyDirection.both) →
              ∀ d ∈ n.depends_on, d ∈ tree → (n.id, d) ∈ out.2) ∧
           ((direction = DependencyDirection.reverse ∨ direction = DependencyDirection.both) →
              ∀ p ∈ n.required_by, p ∈ tree → (p, n.id) ∈ out.2))) := by
  induction ns generalizing st with
  | nil =>
    rintro out rfl
    refine ⟨hkeys, hnd, hend, fun e he => he, fun e he => .inl he, ?_⟩
    rintro _ n hn
    cases hn
  | cons n ns ih =>
    rintro out rfl
    simp only [List.foldl_cons]
    obtain ⟨s1, s2, s3, s4, s5, s6⟩ :=
      subGraphStep_spec direction tree gN n st hkeys hnd hend
        (hns n (List.mem_cons_self _ _)) _ rfl
    obtain ⟨r1, r2, r3, r4, r5, r6⟩ :=
      ih (subGraphStep direction tree st n)
        (fun m hm => hns m (List.mem_cons_of_mem _ hm)) s1 s2 s3 _ rfl
    refine ⟨r1, r2, r3, fun e he => r4 e (s4 e he), ?_, ?_⟩
    · intro e he
      rcases r5 e he with h | ⟨m, hm, hsh⟩
      · rcases s5 e h with h' | hsh'
        · exact .inl h'
        · exact .inr ⟨n, List.mem_cons_self _ _, hsh'⟩
      · exact .inr ⟨m, List.mem_cons_of_mem _ hm, hsh⟩
    · intro hinj m hm
      rcases List.mem_cons.mp hm with rfl | hm'
      · exact ⟨fun hF d hd hdt => r4 _ ((s6 hinj).1 hF d hd hdt),
          fun hR p hp hpt => r4 _ ((s6 hinj).2 hR p hp hpt)⟩
      · exact r6 hinj m hm'

/-- Every name of a node of the graph occurs in `graphNames`. -/
theorem mem_graphNames (nodes : List PackageNode) (n : PackageNode) (hn : n ∈ nodes) :
    n.id ∈ graphNames nodes ∧ (∀ d ∈ n.depends_on, d ∈ graphNames nodes) ∧
      (∀ p ∈ n.required_by, p ∈ graphNames nodes) := by
  refine ⟨?_, ?_, ?_⟩
  · exact List.mem_flatMap.mpr ⟨n, hn, List.mem_cons_self _ _⟩
  · intro d hd
    exact List.mem_flatMap.mpr ⟨n, hn,
      List.mem_cons_of_mem _ (List.mem_append_left _ hd)⟩
  · intro p hp
    exact List.mem_flatMap.mpr ⟨n, hn,
      List.mem_cons_of_mem _ (List.mem_append_right _ hp)⟩

/-- C6 counterexample: package names may contain the arrow used to build
dedup keys; the focal node "a->a" has a forward edge to its neighbor "a"
and a reverse edge from it, both pairs yield the same key "a->a->a", and
under direction `both` only the first is kept — the reverse pair is merged
away instead of kept as a distinct edge. -/
theorem subGraph_edge_merge_counterexample :
    "a" ∈ cxP.depends_on ∧ "a" ∈ cxP.required_by ∧
    (subGraphData [cxP, cxQ] "a->a" DependencyDirection.both).links = [("a->a", "a")] ∧
    ("a", "a->a") ∉ (subGraphData [cxP, cxQ] "a->a" DependencyDirection.both).links := by
  have htree : treePackageIds [cxP, cxQ] "a->a" DependencyDirection.both = ["a->a", "a"] := by
    simp [treePackageIds, collectPackageTree, collectReversePackageTree, collectGo,
      addUnique, cxP, cxQ, List.find?]
  have h2 : (subGraphData [cxP, cxQ] "a->a" DependencyDirection.both).links =
      [("a->a", "a")] := by
    show subGraphLinks [cxP, cxQ] "a->a" DependencyDirection.both = [("a->a", "a")]
    simp only [subGraphLinks, subGraphNodes, htree]
    decide
  refine ⟨by decide, by decide, h2, ?_⟩
  rw [h2]
  decide

/-- C6 (amended): the extracted edge list always contains each ordered pair
(source, target) at most once, whichever adjacency lists produced it; and
provided the dedup key (source + "->" + target) is injective on the names
occurring in the graph — which holds in particular when package names
contain no "->" — membership in the edge list is exactly: a forward pair
(n.id, dep) of an included node with in-tree target when the direction
includes forward, or a reverse pair (parent, n.id) of an included node with
in-tree source when the direction includes reverse; so a forward A→B and a
reverse B→A are then both kept, as distinct edges. -/
theorem subGraph_edge_dedup (nodes : List PackageNode) (selectedId : String)
    (direction : DependencyDirection) :
    (subGraphData nodes selectedId direction).links.Nodup ∧
    ((∀ a ∈ graphNames nodes, ∀ b ∈ graphNames nodes, ∀ c ∈ graphNames nodes,
        ∀ d2 ∈ graphNames nodes, linkKey a b = linkKey c d2 → a = c ∧ b = d2) →
      ∀ s t, (s, t) ∈ (subGraphData nodes selectedId direction).links ↔
        (((direction = DependencyDirection.forward ∨ direction = DependencyDirection.both) ∧
          ∃ n ∈ subGraphNodes nodes selectedId direction,
            s = n.id ∧ t ∈ n.depends_on ∧ t ∈ treePackageIds nodes selectedId direction) ∨
         ((direction = DependencyDirection.reverse ∨ direction = DependencyDirection.both) ∧
          ∃ n ∈ subGraphNodes nodes selectedId direction,
            t = n.id ∧ s ∈ n.required_by ∧ s ∈ treePackageIds nodes selectedId direction))) := by
  have hns : ∀ n ∈ subGraphNodes nodes selectedId direction,
      n.id ∈ graphNames nodes ∧ (∀ d ∈ n.depends_on, d ∈ graphNames nodes) ∧
        (∀ p ∈ n.required_by, p ∈ graphNames nodes) :=
    fun n hn => mem_graphNames nodes n (List.mem_of_mem_filter hn)
  obtain ⟨r1, r2, r3, r4, r5, r6⟩ :=
    subGraphFold_spec direction (treePackageIds nodes selectedId direction)
      (graphNames nodes) (subGraphNodes nodes selectedId direction) ([], []) hns rfl
      List.nodup_nil (by simp)
      ((subGraphNodes nodes selectedId direction).foldl
        (subGraphStep direction (treePackageIds nodes selectedId direction)) ([], [])) rfl
  constructor
  · exact List.Nodup.of_map _ (r1 ▸ r2)
  · intro hinj s t
    have hinj2 : ∀ e1 e2 : String × String, e1.1 ∈ graphNames nodes →
        e1.2 ∈ graphNames nodes → e2.1 ∈ graphNames nodes → e2.2 ∈ graphNames nodes →
        linkKey e1.1 e1.2 = linkKey e2.1 e2.2 → e1 = e2 := by
      intro e1 e2 h1 h2 h3 h4 hk
      obtain ⟨hA, hB⟩ := hinj e1.1 h1 e1.2 h2 e2.1 h3 e2.2 h4 hk
      exact Prod.ext hA hB
    constructor
    · intro hst
      rcases r5 (s, t) hst with h | ⟨n, hn, hsh | hsh⟩
      · cases h
      · exact .inl ⟨hsh.1, n, hn, hsh.2.1, hsh.2.2.1, hsh.2.2.2⟩
      · exact .inr ⟨hsh.1, n, hn, hsh.2.1, hsh.2.2.1, hsh.2.2.2⟩
    · rintro (⟨hdir, n, hn, rfl, htdep, htt⟩ | ⟨hdir, n, hn, rfl, hsreq, hst'⟩)
      · exact (r6 hinj2 n hn).1 hdir t htdep htt
      · exact (r6 hinj2 n hn).2 hdir s hsreq hst'

/-- C6 witness: on the end-to-end example graph, whose names contain no
arrow, the key is injective and the forward edge from the focal node A to B
is in the extracted edge list. -/
theorem subGraph_edge_dedup_witness :
    ("A", "B") ∈ (subGraphData [exA, exB] "A" DependencyDirection.both).links := by
  have htree : treePackageIds [exA, exB] "A" DependencyDirection.both = ["A", "B", "C"] := by
    simp [treePackageIds, collectPackageTree, collectReversePackageTree, collectGo,
      addUnique, exA, exB, List.find?]
  apply ((subGraph_edge_dedup [exA, exB] "A" DependencyDirection.both).2 (by decide)
    "A" "B").mpr
  refine .inl ⟨.inr rfl, exA, ?_, rfl, by decide, ?_⟩
  · show exA ∈ subGraphNodes [exA, exB] "A" DependencyDirection.both
    simp only [subGraphNodes, htree]
    decide
  · rw [htree]
    decide

/-- C2 witness: on the one-node graph the closure from "A" contains "A". -/
theorem collectPackageTree_closure_correct_witness :
    "A" ∈ collectPackageTree "A" [exA] [] :=
  ((collectPackageTree_closure_correct [exA] "A").1 "A").mpr (.refl "A")

/-- C3 witness: a plain unused dependency record is orphaned. -/
theorem isOrphaned_spec_witness : isOrphaned exB0 = true :=
  (isOrphaned_spec exB0).mpr ⟨rfl, rfl⟩
